import Mathlib

/-!
# Verification of the mixed markdown/LaTeX content parser

Shallow embedding of the content-parsing pipeline of the `MarkdownLatex`
component (block-math splitting, pipe-table extraction, inline-math
extraction, line/list formatting, inline emphasis resolution), together
with proofs about the pipeline's behaviour.

Strings are processed as `List Char`; the render output is modelled by
the `Node` type, one constructor per kind of rendered element the
component emits.
-/

namespace MarkdownLatex

/-! ## Character classes and small string utilities -/

/-- The character class of JavaScript's regex escape `\s` (whitespace),
also the class trimmed by JavaScript's `String.prototype.trim`. -/
def isSpaceJS (c : Char) : Bool :=
  c = ' ' || c = '\t' || c = '\n' || c = '\x0b' || c = '\x0c' || c = '\r' ||
  c = '\u00A0' || c = '\u1680' || ('\u2000' ≤ c && c ≤ '\u200A') ||
  c = '\u2028' || c = '\u2029' || c = '\u202F' || c = '\u205F' ||
  c = '\u3000' || c = '\uFEFF'

/-- The character class of JavaScript's regex escape `\d`: the ten
ASCII digits. -/
def isDigitJS (c : Char) : Bool :=
  '0' ≤ c && c ≤ '9'

/-- The character class `[-:| ]` of the table-separator line in the
table-extraction regex. -/
def sepClass (c : Char) : Bool :=
  c = '-' || c = ':' || c = '|' || c = ' '

/-- The character class `[-:]` used by `isMarkdownTable`'s separator
check. -/
def dashColon (c : Char) : Bool :=
  c = '-' || c = ':'

/-- JavaScript `String.prototype.trim` on a character list. -/
def trimJS (cs : List Char) : List Char :=
  ((cs.dropWhile isSpaceJS).reverse.dropWhile isSpaceJS).reverse

/-- JavaScript `text.split("\n")` on a character list: the list of
lines; an empty input gives one empty line. -/
def splitLines : List Char → List (List Char)
  | [] => [[]]
  | c :: cs =>
    if c = '\n' then [] :: splitLines cs
    else
      match splitLines cs with
      | l :: ls => (c :: l) :: ls
      | [] => [[c]]

/-- JavaScript `line.split("|")` on a character list. -/
def splitOnPipe : List Char → List (List Char)
  | [] => [[]]
  | c :: cs =>
    if c = '|' then [] :: splitOnPipe cs
    else
      match splitOnPipe cs with
      | l :: ls => (c :: l) :: ls
      | [] => [[c]]

/-- Index of the last occurrence of `c`, if any. -/
def lastIdxOf (c : Char) : List Char → Option Nat
  | [] => none
  | x :: xs =>
    match lastIdxOf c xs with
    | some k => some (k + 1)
    | none => if x = c then some 0 else none

/-! ## The render-node data model -/

/-- One typed unit of rendered output of the pipeline. -/
inductive Node where
  | PlainText (text : String)
  | Bold (text : String)
  | Italic (text : String)
  | InlineCode (text : String)
  | Link (text : String) (url : String)
  | BlockMath (expression : String)
  | InlineMath (expression : String)
  | LineBreak
  | ListItem (label : String) (children : List Node)
  | Table (headers : List String) (rows : List (List String))

/-! ## Inline emphasis resolver (`parseInlineMarkdown`)

Four pattern classes, in the source's fixed order: bold
`\*\*([^*]+)\*\*`, italic `\*([^*]+)\*`, inline code with backticks,
link `\[([^\]]+)\]\(([^)]+)\)`.  Only the first class with a match
anywhere in the line is applied, globally. -/

/-- Match of the bold pattern anchored at the head of the list:
returns the captured content and the remainder after the match. -/
def matchBoldAt : List Char → Option (List Char × List Char)
  | c1 :: c2 :: rest =>
    if c1 = '*' && c2 = '*' then
      let content := rest.takeWhile (· ≠ '*')
      if content = [] then none
      else
        match rest.dropWhile (· ≠ '*') with
        | d1 :: d2 :: rest2 =>
          if d1 = '*' && d2 = '*' then some (content, rest2) else none
        | _ => none
    else none
  | _ => none

/-- Leftmost match of the bold pattern: text before the match, the
captured content, and the remainder. -/
def boldSplit : List Char → Option (List Char × List Char × List Char)
  | [] => none
  | c :: cs =>
    match matchBoldAt (c :: cs) with
    | some (content, rest) => some ([], content, rest)
    | none => (boldSplit cs).map fun (p, ct, r) => (c :: p, ct, r)

/-- Match of the italic pattern anchored at the head of the list. -/
def matchItalicAt : List Char → Option (List Char × List Char)
  | c1 :: rest =>
    if c1 = '*' then
      let content := rest.takeWhile (· ≠ '*')
      if content = [] then none
      else
        match rest.dropWhile (· ≠ '*') with
        | d1 :: rest2 => if d1 = '*' then some (content, rest2) else none
        | _ => none
    else none
  | _ => none

/-- Leftmost match of the italic pattern. -/
def italicSplit : List Char → Option (List Char × List Char × List Char)
  | [] => none
  | c :: cs =>
    match matchItalicAt (c :: cs) with
    | some (content, rest) => some ([], content, rest)
    | none => (italicSplit cs).map fun (p, ct, r) => (c :: p, ct, r)

/-- Match of the inline-code pattern (backtick-delimited) anchored at
the head of the list. -/
def matchCodeAt : List Char → Option (List Char × List Char)
  | c1 :: rest =>
    if c1 = '\x60' then
      let content := rest.takeWhile (· ≠ '\x60')
      if content = [] then none
      else
        match rest.dropWhile (· ≠ '\x60') with
        | d1 :: rest2 => if d1 = '\x60' then some (content, rest2) else none
        | _ => none
    else none
  | _ => none

/-- Leftmost match of the inline-code pattern. -/
def codeSplit : List Char → Option (List Char × List Char × List Char)
  | [] => none
  | c :: cs =>
    match matchCodeAt (c :: cs) with
    | some (content, rest) => some ([], content, rest)
    | none => (codeSplit cs).map fun (p, ct, r) => (c :: p, ct, r)

/-- Match of the link pattern anchored at the head of the list:
returns the link text, the url, and the remainder. -/
def matchLinkAt : List Char → Option (List Char × List Char × List Char)
  | c1 :: rest =>
    if c1 = '[' then
      let t := rest.takeWhile (· ≠ ']')
      if t = [] then none
      else
        match rest.dropWhile (· ≠ ']') with
        | d1 :: d2 :: rest2 =>
          if d1 = ']' && d2 = '(' then
            let u := rest2.takeWhile (· ≠ ')')
            if u = [] then none
            else
              match rest2.dropWhile (· ≠ ')') with
              | e1 :: rest3 => if e1 = ')' then some (t, u, rest3) else none
              | _ => none
          else none
        | _ => none
    else none
  | _ => none

/-- Leftmost match of the link pattern: text before the match, link
text, url, and the remainder. -/
def linkSplit : List Char → Option (List Char × List Char × List Char × List Char)
  | [] => none
  | c :: cs =>
    match matchLinkAt (c :: cs) with
    | some (t, u, rest) => some ([], t, u, rest)
    | none => (linkSplit cs).map fun (p, t, u, r) => (c :: p, t, u, r)

/-- Global application of the bold pattern: every non-overlapping
occurrence becomes a `Bold` node, intervening text becomes
`PlainText`.  The fuel argument bounds the recursion depth; each step
consumes at least four characters, so `length + 1` always suffices. -/
def renderBoldAux : Nat → List Char → List Node
  | 0, _ => []
  | fuel + 1, cs =>
    match boldSplit cs with
    | none => if cs = [] then [] else [Node.PlainText (String.mk cs)]
    | some (pre, content, rest) =>
      (if pre = [] then [] else [Node.PlainText (String.mk pre)]) ++
        Node.Bold (String.mk content) :: renderBoldAux fuel rest

/-- Global application of the italic pattern. -/
def renderItalicAux : Nat → List Char → List Node
  | 0, _ => []
  | fuel + 1, cs =>
    match italicSplit cs with
    | none => if cs = [] then [] else [Node.PlainText (String.mk cs)]
    | some (pre, content, rest) =>
      (if pre = [] then [] else [Node.PlainText (String.mk pre)]) ++
        Node.Italic (String.mk content) :: renderItalicAux fuel rest

/-- Global application of the inline-code pattern. -/
def renderCodeAux : Nat → List Char → List Node
  | 0, _ => []
  | fuel + 1, cs =>
    match codeSplit cs with
    | none => if cs = [] then [] else [Node.PlainText (String.mk cs)]
    | some (pre, content, rest) =>
      (if pre = [] then [] else [Node.PlainText (String.mk pre)]) ++
        Node.InlineCode (String.mk content) :: renderCodeAux fuel rest

/-- Global application of the link pattern. -/
def renderLinkAux : Nat → List Char → List Node
  | 0, _ => []
  | fuel + 1, cs =>
    match linkSplit cs with
    | none => if cs = [] then [] else [Node.PlainText (String.mk cs)]
    | some (pre, t, u, rest) =>
      (if pre = [] then [] else [Node.PlainText (String.mk pre)]) ++
        Node.Link (String.mk t) (String.mk u) :: renderLinkAux fuel rest

/-- The inline emphasis resolver `parseInlineMarkdown`: the four
pattern classes are tried in fixed priority; only the first class with
a match anywhere in the line is applied, globally; the others are
never applied on that line.  A line where no class matches becomes one
`PlainText` node; an empty line becomes nothing. -/
def parseInlineMarkdown (text : String) : List Node :=
  if text = "" then []
  else
    let cs := text.data
    if (boldSplit cs).isSome then renderBoldAux (cs.length + 1) cs
    else if (italicSplit cs).isSome then renderItalicAux (cs.length + 1) cs
    else if (codeSplit cs).isSome then renderCodeAux (cs.length + 1) cs
    else if (linkSplit cs).isSome then renderLinkAux (cs.length + 1) cs
    else [Node.PlainText text]

/-! ## Line/list formatter (`parseMarkdown`)

Per line: a leading `-` or `*` followed by whitespace gives a bullet
list item (rendered with the fixed glyph `•`); leading digits plus `.`
plus whitespace give a numbered list item labelled by the captured
digits and a period; otherwise the line is inline-resolved directly.
A line break is emitted before every line but the first. -/

/-- The bullet-item test `/^[-*]\s+/`: a leading `-` or `*` followed
by at least one whitespace character. -/
def isBulletLine (line : List Char) : Bool :=
  match line with
  | m :: c :: _ => (m = '-' || m = '*') && isSpaceJS c
  | _ => false

/-- The numbered-item test `/^(\d+)\.\s+/`: leading digits, a period,
then at least one whitespace character. -/
def isNumberedLine (line : List Char) : Bool :=
  match line.takeWhile isDigitJS, line.dropWhile isDigitJS with
  | _ :: _, d :: c :: _ => d = '.' && isSpaceJS c
  | _, _ => false

/-- Classification of a single line of `parseMarkdown`'s input: a
bullet line becomes a `ListItem` rendered with the fixed glyph `•`
(whatever the source marker was); a numbered line becomes a `ListItem`
labelled with the captured digits and a period; any other line is
inline-resolved directly.  The matched prefix (marker plus the maximal
whitespace run) is removed from the item content. -/
def parseLine (line : List Char) : List Node :=
  if isBulletLine line then
    [Node.ListItem "•"
      (parseInlineMarkdown (String.mk ((line.drop 1).dropWhile isSpaceJS)))]
  else if isNumberedLine line then
    [Node.ListItem (String.mk (line.takeWhile isDigitJS ++ ['.']))
      (parseInlineMarkdown
        (String.mk (((line.dropWhile isDigitJS).drop 1).dropWhile isSpaceJS)))]
  else parseInlineMarkdown (String.mk line)

/-- The per-line outputs joined with a `LineBreak` before every line
but the first. -/
def joinLines : List (List Char) → List Node
  | [] => []
  | [l] => parseLine l
  | l :: ls => parseLine l ++ Node.LineBreak :: joinLines ls

/-- The line/list formatter `parseMarkdown`: splits on newlines,
classifies each line, and inserts a `LineBreak` between consecutive
lines. -/
def parseMarkdown (text : String) : List Node :=
  if text = "" then []
  else joinLines (splitLines text.data)

/-! ## Inline math extractor (`parseInlineContent`)

Every non-overlapping match of `\$([^\$\n]+)\$` becomes an
`InlineMath` node (expression trimmed); inter-match text is forwarded
to the line/list formatter. -/

/-- Match of the inline-math pattern anchored at the head of the
list. -/
def matchMathAt : List Char → Option (List Char × List Char)
  | c1 :: rest =>
    if c1 = '$' then
      let content := rest.takeWhile fun c => c ≠ '$' && c ≠ '\n'
      if content = [] then none
      else
        match rest.dropWhile fun c => c ≠ '$' && c ≠ '\n' with
        | d1 :: rest2 => if d1 = '$' then some (content, rest2) else none
        | _ => none
    else none
  | _ => none

/-- Leftmost match of the inline-math pattern. -/
def mathSplit : List Char → Option (List Char × List Char × List Char)
  | [] => none
  | c :: cs =>
    match matchMathAt (c :: cs) with
    | some (content, rest) => some ([], content, rest)
    | none => (mathSplit cs).map fun (p, ct, r) => (c :: p, ct, r)

/-- The inline-math extraction loop.  Each step consumes at least
three characters, so fuel `length + 1` always suffices. -/
def parseInlineContentAux : Nat → List Char → List Node
  | 0, _ => []
  | fuel + 1, cs =>
    match mathSplit cs with
    | none => parseMarkdown (String.mk cs)
    | some (pre, content, rest) =>
      (if pre = [] then [] else parseMarkdown (String.mk pre)) ++
        Node.InlineMath (String.mk (trimJS content)) :: parseInlineContentAux fuel rest

/-- The inline math extractor `parseInlineContent`. -/
def parseInlineContent (text : String) : List Node :=
  parseInlineContentAux (text.data.length + 1) text.data

/-! ## Table extractor

The source scans each non-math part with the regex
`((?:^|\n)\|[^\n]+\|\n\|[-:| ]+\|\n(?:\|[^\n]+\|\n?)*)` — a header
line and a separator line each beginning and ending with a pipe,
followed by further pipe-delimited lines — then double-checks the
matched block with `isMarkdownTable` and renders it with
`renderMarkdownTable`. -/

/-- The current line: characters up to the next newline. -/
def lineOf (cs : List Char) : List Char :=
  cs.takeWhile (· ≠ '\n')

/-- The characters after the current line's newline, if the line is
newline-terminated. -/
def restAfterLine (cs : List Char) : Option (List Char) :=
  match cs.dropWhile (· ≠ '\n') with
  | _ :: r => some r
  | [] => none

/-- A line matching `\|[^\n]+\|`: at least three characters, first and
last a pipe. -/
def isPipeLine (L : List Char) : Bool :=
  decide (3 ≤ L.length) && L.head? = some '|' && L.getLast? = some '|'

/-- The data-line loop `(?:\|[^\n]+\|\n?)*`: greedily consumes
pipe-delimited lines; on a line whose last pipe is interior the match
ends just after that pipe.  Returns the consumed text and the rest.
Each recursive step consumes a full line plus its newline, so fuel
`length + 1` always suffices. -/
def matchDataLines : Nat → List Char → List Char × List Char
  | 0, cs => ([], cs)
  | fuel + 1, cs =>
    let L := lineOf cs
    if L.head? = some '|' then
      match lastIdxOf '|' L with
      | some j =>
        if 2 ≤ j then
          if j = L.length - 1 then
            match restAfterLine cs with
            | some r =>
              let (d, r2) := matchDataLines fuel r
              (L ++ '\n' :: d, r2)
            | none => (L, [])
          else (cs.take (j + 1), cs.drop (j + 1))
        else ([], cs)
      | none => ([], cs)
    else ([], cs)

/-- Match of the table-block body (header line, separator line, data
lines) anchored at the head of the list: returns the matched text and
the rest. -/
def matchTableBody (cs : List Char) : Option (List Char × List Char) :=
  let hL := lineOf cs
  match restAfterLine cs with
  | none => none
  | some r1 =>
    if isPipeLine hL then
      let sL := lineOf r1
      match restAfterLine r1 with
      | none => none
      | some r2 =>
        if isPipeLine sL && ((sL.drop 1).dropLast).all sepClass then
          let (d, r3) := matchDataLines (r2.length + 1) r2
          some (hL ++ '\n' :: sL ++ '\n' :: d, r3)
        else none
    else none

/-- Scan for a table block whose `(?:^|\n)` prefix is a newline:
returns the text before the match, the matched text (including the
leading newline), and the rest. -/
def findTableLoop : List Char → Option (List Char × List Char × List Char)
  | [] => none
  | c :: cs =>
    if c = '\n' then
      match matchTableBody cs with
      | some (m, rest) => some ([], c :: m, rest)
      | none => (findTableLoop cs).map fun (p, m, r) => (c :: p, m, r)
    else (findTableLoop cs).map fun (p, m, r) => (c :: p, m, r)

/-- Leftmost table match: at the very start of the part the `^`
alternative applies, afterwards a table block must follow a newline. -/
def findTable (cs : List Char) (atStart : Bool) :
    Option (List Char × List Char × List Char) :=
  if atStart then
    match matchTableBody cs with
    | some (m, rest) => some ([], m, rest)
    | none => findTableLoop cs
  else findTableLoop cs

/-- The test `/^\|?\s*[-:]+\s*\|/` applied to one line: an optional
leading pipe, optional whitespace, at least one dash or colon,
optional whitespace, then a pipe. -/
def sepLineTest (l : List Char) : Bool :=
  let l1 := match l with
    | c :: r => if c = '|' then r else l
    | [] => l
  let l2 := l1.dropWhile isSpaceJS
  let run := l2.takeWhile dashColon
  let l3 := (l2.dropWhile dashColon).dropWhile isSpaceJS
  decide (run ≠ []) && l3.head? = some '|'

/-- `isMarkdownTable`: the trimmed block must have at least two lines,
a pipe in its first line, and some line passing the separator test. -/
def isMarkdownTable (text : String) : Bool :=
  match splitLines (trimJS text.data) with
  | l0 :: _ :: _ =>
    l0.contains '|' && (splitLines (trimJS text.data)).any sepLineTest
  | _ => false

/-- Cell extraction of `renderMarkdownTable`: split on pipes, drop the
components that are empty after trimming, trim the rest. -/
def parseCells (line : List Char) : List String :=
  ((splitOnPipe line).filter fun c => trimJS c ≠ []).map fun c => String.mk (trimJS c)

/-- `renderMarkdownTable`: the non-blank lines of the trimmed block;
fewer than two lines fall back to plain text, otherwise the first
line's cells are the headers, the separator line is discarded, and the
remaining lines are the rows. -/
def renderMarkdownTable (tableText : String) : Node :=
  let lines := (splitLines (trimJS tableText.data)).filter fun l => trimJS l ≠ []
  if lines.length < 2 then Node.PlainText tableText
  else Node.Table (parseCells (lines.headD [])) ((lines.drop 2).map parseCells)

/-- A matched table block is rendered as a table if `isMarkdownTable`
accepts it, otherwise it is re-parsed as inline content. -/
def renderTableOrInline (m : String) : List Node :=
  if isMarkdownTable m then [renderMarkdownTable m] else parseInlineContent m

/-- The table-extraction loop over one non-math part: text before and
between table matches goes to the inline-math extractor.  Each step
consumes at least the matched block (at least eight characters), so
fuel `length + 1` always suffices. -/
def scanTablesAux : Nat → List Char → Bool → List Node
  | 0, cs, _ => if cs = [] then [] else parseInlineContent (String.mk cs)
  | fuel + 1, cs, atStart =>
    match findTable cs atStart with
    | none => if cs = [] then [] else parseInlineContent (String.mk cs)
    | some (pre, m, rest) =>
      (if pre = [] then [] else parseInlineContent (String.mk pre)) ++
        renderTableOrInline (String.mk m) ++ scanTablesAux fuel rest false

/-- The table-extraction phase applied to one non-math part. -/
def tablePhase (cs : List Char) : List Node :=
  scanTablesAux (cs.length + 1) cs true

/-! ## Block splitter (`parseContent`)

The part is split by `(\$\$[\s\S]*?\$\$)` — non-greedy, so each block
runs from an opening `$$` to the nearest following `$$`; the captured
delimiters are kept in the part list.  A part that starts and ends
with `$$` becomes a `BlockMath` node with the trimmed interior; every
other part goes through table extraction and inline parsing. -/

/-- Split at the first occurrence of `$$`: the text before it and the
text after it. -/
def splitDD : List Char → Option (List Char × List Char)
  | [] => none
  | [_] => none
  | c1 :: c2 :: rest =>
    if c1 = '$' && c2 = '$' then some ([], rest)
    else (splitDD (c2 :: rest)).map fun (p, r) => (c1 :: p, r)

/-- Leftmost non-greedy match of `\$\$[\s\S]*?\$\$`: text before the
match, the full matched text (delimiters included), and the rest. -/
def findBlockMath (cs : List Char) : Option (List Char × List Char × List Char) :=
  match splitDD cs with
  | none => none
  | some (pre, r1) =>
    match splitDD r1 with
    | none => none
    | some (content, r2) =>
      some (pre, '$' :: '$' :: (content ++ ['$', '$']), r2)

/-- The part list produced by splitting on block-math matches, matched
delimiters included, like JavaScript `split` with a capture group.
Each step consumes at least four characters, so fuel `length + 1`
always suffices. -/
def splitBlockMathAux : Nat → List Char → List (List Char)
  | 0, cs => [cs]
  | fuel + 1, cs =>
    match findBlockMath cs with
    | none => [cs]
    | some (pre, m, rest) => pre :: m :: splitBlockMathAux fuel rest

/-- Split a text into alternating plain parts and block-math parts. -/
def splitBlockMath (cs : List Char) : List (List Char) :=
  splitBlockMathAux (cs.length + 1) cs

/-- `part.startsWith("$$")`. -/
def startsWithDD : List Char → Bool
  | c1 :: c2 :: _ => c1 = '$' && c2 = '$'
  | _ => false

/-- `part.endsWith("$$")` (the two tests may overlap on a short
part, exactly as in JavaScript). -/
def endsWithDD (cs : List Char) : Bool :=
  startsWithDD cs.reverse

/-- Handling of one part of the block-math split: a part passing both
delimiter tests becomes a `BlockMath` node with the trimmed interior
(`slice(2, -2)`), every other part goes through the table phase. -/
def processPart (cs : List Char) : List Node :=
  if startsWithDD cs && endsWithDD cs then
    [Node.BlockMath (String.mk (trimJS ((cs.drop 2).dropLast.dropLast)))]
  else tablePhase cs

/-- The whole pipeline `parseContent`: block-math split, then per-part
processing. -/
def parseContent (text : String) : List Node :=
  (splitBlockMath text.data).flatMap processPart

/-! ## Observations on the output used to state the claims -/

mutual

/-- The leaf text content of one node, with the canonical literal
delimiters of its syntax restored — the reconstruction map of the
spec's concatenation invariant.  A table's dropped text is not
recoverable, so a table contributes nothing. -/
def leafText : Node → String
  | .PlainText t => t
  | .Bold t => "**" ++ t ++ "**"
  | .Italic t => "*" ++ t ++ "*"
  | .InlineCode t => "\x60" ++ t ++ "\x60"
  | .Link t u => "[" ++ t ++ "](" ++ u ++ ")"
  | .BlockMath e => "$$" ++ e ++ "$$"
  | .InlineMath e => "$" ++ e ++ "$"
  | .LineBreak => "\n"
  | .ListItem label children => label ++ leafConcat children
  | .Table _ _ => ""

/-- Concatenated leaf text content of a node sequence. -/
def leafConcat : List Node → String
  | [] => ""
  | n :: ns => leafText n ++ leafConcat ns

end

mutual

/-- Whether a node is, or contains, a `BlockMath` node. -/
def hasBlockMath : Node → Bool
  | .BlockMath _ => true
  | .ListItem _ children => hasBlockMathList children
  | _ => false

/-- Whether a node sequence contains a `BlockMath` node anywhere,
list-item children included. -/
def hasBlockMathList : List Node → Bool
  | [] => false
  | n :: ns => hasBlockMath n || hasBlockMathList ns

end

/-- Whether a node is a `Table` node. -/
def isTableNode : Node → Bool
  | .Table _ _ => true
  | _ => false

/-- Whether a node is a `LineBreak` node. -/
def isLineBreak : Node → Bool
  | .LineBreak => true
  | _ => false

/-- Whether a node could be emitted by the first pattern class of the
inline emphasis resolver: plain text or bold, nothing of the other
three classes. -/
def isBoldOrPlain : Node → Bool
  | .Bold _ => true
  | .PlainText _ => true
  | _ => false

/-- The number of `LineBreak` nodes in a node sequence. -/
def countLB (ns : List Node) : Nat :=
  ns.countP fun n => isLineBreak n

/-- Whether a node is one of the five kinds the inline emphasis
resolver can emit. -/
def isInlineNode : Node → Bool
  | .PlainText _ => true
  | .Bold _ => true
  | .Italic _ => true
  | .InlineCode _ => true
  | .Link _ _ => true
  | _ => false

/-- Rejoin a line list with newlines: the inverse of `splitLines`. -/
def joinNL : List (List Char) → List Char
  | [] => []
  | [l] => l
  | l :: ls => l ++ '\n' :: joinNL ls

/-! ## Lemmas: the anchored matchers decompose their input -/

theorem matchBoldAt_eq {cs ct r : List Char}
    (h : matchBoldAt cs = some (ct, r)) :
    cs = '*' :: '*' :: (ct ++ '*' :: '*' :: r) ∧ ∀ c ∈ ct, c ≠ '*' := by
  match cs with
  | [] => simp [matchBoldAt] at h
  | [c] => simp [matchBoldAt] at h
  | c1 :: c2 :: rest =>
    simp only [matchBoldAt] at h
    split at h
    case isFalse => exact absurd h (by simp)
    case isTrue h12 =>
      split at h
      case isTrue => exact absurd h (by simp)
      case isFalse hne =>
        split at h
        case h_2 => exact absurd h (by simp)
        case h_1 d1 d2 rest2 heq =>
          split at h
          case isFalse => exact absurd h (by simp)
          case isTrue hd =>
            obtain ⟨rfl, rfl⟩ : ct = rest.takeWhile (· ≠ '*') ∧ r = rest2 := by
              simpa [eq_comm] using h
            obtain ⟨h1, h2⟩ := And.intro (of_decide_eq_true (Bool.and_elim_left h12))
              (of_decide_eq_true (Bool.and_elim_right h12))
            obtain ⟨hd1, hd2⟩ := And.intro (of_decide_eq_true (Bool.and_elim_left hd))
              (of_decide_eq_true (Bool.and_elim_right hd))
            subst h1 h2 hd1 hd2
            refine ⟨?_, fun c hc => by simpa using List.mem_takeWhile_imp hc⟩
            have := List.takeWhile_append_dropWhile (p := (· ≠ '*')) (l := rest)
            rw [heq] at this
            rw [this]

theorem matchItalicAt_eq {cs ct r : List Char}
    (h : matchItalicAt cs = some (ct, r)) :
    cs = '*' :: (ct ++ '*' :: r) ∧ ∀ c ∈ ct, c ≠ '*' := by
  match cs with
  | [] => simp [matchItalicAt] at h
  | c1 :: rest =>
    simp only [matchItalicAt] at h
    split at h
    case isFalse => exact absurd h (by simp)
    case isTrue h1 =>
      split at h
      case isTrue => exact absurd h (by simp)
      case isFalse hne =>
        split at h
        case h_2 => exact absurd h (by simp)
        case h_1 d1 rest2 heq =>
          split at h
          case isFalse => exact absurd h (by simp)
          case isTrue hd =>
            obtain ⟨rfl, rfl⟩ : ct = rest.takeWhile (· ≠ '*') ∧ r = rest2 := by
              simpa [eq_comm] using h
            subst h1 hd
            refine ⟨?_, fun c hc => by simpa using List.mem_takeWhile_imp hc⟩
            have := List.takeWhile_append_dropWhile (p := (· ≠ '*')) (l := rest)
            rw [heq] at this
            rw [this]

theorem matchCodeAt_eq {cs ct r : List Char}
    (h : matchCodeAt cs = some (ct, r)) :
    cs = '\x60' :: (ct ++ '\x60' :: r) ∧ ∀ c ∈ ct, c ≠ '\x60' := by
  match cs with
  | [] => simp [matchCodeAt] at h
  | c1 :: rest =>
    simp only [matchCodeAt] at h
    split at h
    case isFalse => exact absurd h (by simp)
    case isTrue h1 =>
      split at h
      case isTrue => exact absurd h (by simp)
      case isFalse hne =>
        split at h
        case h_2 => exact absurd h (by simp)
        case h_1 d1 rest2 heq =>
          split at h
          case isFalse => exact absurd h (by simp)
          case isTrue hd =>
            obtain ⟨rfl, rfl⟩ : ct = rest.takeWhile (· ≠ '\x60') ∧ r = rest2 := by
              simpa [eq_comm] using h
            subst h1 hd
            refine ⟨?_, fun c hc => by simpa using List.mem_takeWhile_imp hc⟩
            have := List.takeWhile_append_dropWhile (p := (· ≠ '\x60')) (l := rest)
            rw [heq] at this
            rw [this]

theorem matchMathAt_eq {cs ct r : List Char}
    (h : matchMathAt cs = some (ct, r)) :
    cs = '$' :: (ct ++ '$' :: r) ∧ ∀ c ∈ ct, c ≠ '$' ∧ c ≠ '\n' := by
  match cs with
  | [] => simp [matchMathAt] at h
  | c1 :: rest =>
    simp only [matchMathAt] at h
    split at h
    case isFalse => exact absurd h (by simp)
    case isTrue h1 =>
      split at h
      case isTrue => exact absurd h (by simp)
      case isFalse hne =>
        split at h
        case h_2 => exact absurd h (by simp)
        case h_1 d1 rest2 heq =>
          split at h
          case isFalse => exact absurd h (by simp)
          case isTrue hd =>
            obtain ⟨rfl, rfl⟩ :
                ct = rest.takeWhile (fun c => c ≠ '$' && c ≠ '\n') ∧ r = rest2 := by
              simpa [eq_comm] using h
            subst h1 hd
            refine ⟨?_, fun c hc => by simpa using List.mem_takeWhile_imp hc⟩
            have := List.takeWhile_append_dropWhile
              (p := fun c => c ≠ '$' && c ≠ '\n') (l := rest)
            rw [heq] at this
            rw [this]

theorem matchLinkAt_eq {cs t u r : List Char}
    (h : matchLinkAt cs = some (t, u, r)) :
    cs = '[' :: (t ++ ']' :: '(' :: (u ++ ')' :: r)) ∧
      (∀ c ∈ t, c ≠ ']') ∧ ∀ c ∈ u, c ≠ ')' := by
  match cs with
  | [] => simp [matchLinkAt] at h
  | c1 :: rest =>
    simp only [matchLinkAt] at h
    split at h
    case isFalse => exact absurd h (by simp)
    case isTrue h1 =>
      split at h
      case isTrue => exact absurd h (by simp)
      case isFalse htne =>
        split at h
        case h_2 => exact absurd h (by simp)
        case h_1 d1 d2 rest2 heq =>
          split at h
          case isFalse => exact absurd h (by simp)
          case isTrue hd =>
            split at h
            case isTrue => exact absurd h (by simp)
            case isFalse hune =>
              split at h
              case h_2 => exact absurd h (by simp)
              case h_1 e1 rest3 heq2 =>
                split at h
                case isFalse => exact absurd h (by simp)
                case isTrue he =>
                  obtain ⟨rfl, rfl, rfl⟩ :
                      t = rest.takeWhile (· ≠ ']') ∧
                        u = rest2.takeWhile (· ≠ ')') ∧ r = rest3 := by
                    simpa [eq_comm] using h
                  obtain ⟨hd1, hd2⟩ := And.intro
                    (of_decide_eq_true (Bool.and_elim_left hd))
                    (of_decide_eq_true (Bool.and_elim_right hd))
                  subst h1 hd1 hd2 he
                  refine ⟨?_, fun c hc => by simpa using List.mem_takeWhile_imp hc,
                    fun c hc => by simpa using List.mem_takeWhile_imp hc⟩
                  have h3 := List.takeWhile_append_dropWhile (p := (· ≠ ')')) (l := rest2)
                  rw [heq2] at h3
                  have h4 := List.takeWhile_append_dropWhile (p := (· ≠ ']')) (l := rest)
                  rw [heq] at h4
                  rw [h3, h4]

/-! ## Lemmas: the leftmost-match scanners decompose their input -/

theorem boldSplit_eq {cs p ct r : List Char}
    (h : boldSplit cs = some (p, ct, r)) :
    cs = p ++ '*' :: '*' :: (ct ++ '*' :: '*' :: r) ∧ ∀ c ∈ ct, c ≠ '*' := by
  induction cs generalizing p with
  | nil => simp [boldSplit] at h
  | cons c cs ih =>
    rw [boldSplit] at h
    cases hm : matchBoldAt (c :: cs) with
    | some x =>
      rw [hm] at h
      obtain ⟨ct0, rest0⟩ := x
      obtain ⟨rfl, rfl, rfl⟩ : p = [] ∧ ct = ct0 ∧ r = rest0 := by
        simpa [eq_comm] using h
      obtain ⟨hdec, hct⟩ := matchBoldAt_eq hm
      exact ⟨by simpa using hdec, hct⟩
    | none =>
      rw [hm] at h
      cases hb : boldSplit cs with
      | none => rw [hb] at h; simp at h
      | some y =>
        rw [hb] at h
        obtain ⟨p', ct', r'⟩ := y
        obtain ⟨rfl, rfl, rfl⟩ : p = c :: p' ∧ ct = ct' ∧ r = r' := by
          simpa [eq_comm] using h
        obtain ⟨hdec, hct⟩ := ih hb
        exact ⟨by rw [List.cons_append, ← hdec], hct⟩

theorem italicSplit_eq {cs p ct r : List Char}
    (h : italicSplit cs = some (p, ct, r)) :
    cs = p ++ '*' :: (ct ++ '*' :: r) ∧ ∀ c ∈ ct, c ≠ '*' := by
  induction cs generalizing p with
  | nil => simp [italicSplit] at h
  | cons c cs ih =>
    rw [italicSplit] at h
    cases hm : matchItalicAt (c :: cs) with
    | some x =>
      rw [hm] at h
      obtain ⟨ct0, rest0⟩ := x
      obtain ⟨rfl, rfl, rfl⟩ : p = [] ∧ ct = ct0 ∧ r = rest0 := by
        simpa [eq_comm] using h
      obtain ⟨hdec, hct⟩ := matchItalicAt_eq hm
      exact ⟨by simpa using hdec, hct⟩
    | none =>
      rw [hm] at h
      cases hb : italicSplit cs with
      | none => rw [hb] at h; simp at h
      | some y =>
        rw [hb] at h
        obtain ⟨p', ct', r'⟩ := y
        obtain ⟨rfl, rfl, rfl⟩ : p = c :: p' ∧ ct = ct' ∧ r = r' := by
          simpa [eq_comm] using h
        obtain ⟨hdec, hct⟩ := ih hb
        exact ⟨by rw [List.cons_append, ← hdec], hct⟩

theorem codeSplit_eq {cs p ct r : List Char}
    (h : codeSplit cs = some (p, ct, r)) :
    cs = p ++ '\x60' :: (ct ++ '\x60' :: r) ∧ ∀ c ∈ ct, c ≠ '\x60' := by
  induction cs generalizing p with
  | nil => simp [codeSplit] at h
  | cons c cs ih =>
    rw [codeSplit] at h
    cases hm : matchCodeAt (c :: cs) with
    | some x =>
      rw [hm] at h
      obtain ⟨ct0, rest0⟩ := x
      obtain ⟨rfl, rfl, rfl⟩ : p = [] ∧ ct = ct0 ∧ r = rest0 := by
        simpa [eq_comm] using h
      obtain ⟨hdec, hct⟩ := matchCodeAt_eq hm
      exact ⟨by simpa using hdec, hct⟩
    | none =>
      rw [hm] at h
      cases hb : codeSplit cs with
      | none => rw [hb] at h; simp at h
      | some y =>
        rw [hb] at h
        obtain ⟨p', ct', r'⟩ := y
        obtain ⟨rfl, rfl, rfl⟩ : p = c :: p' ∧ ct = ct' ∧ r = r' := by
          simpa [eq_comm] using h
        obtain ⟨hdec, hct⟩ := ih hb
        exact ⟨by rw [List.cons_append, ← hdec], hct⟩

theorem mathSplit_eq {cs p ct r : List Char}
    (h : mathSplit cs = some (p, ct, r)) :
    cs = p ++ '$' :: (ct ++ '$' :: r) ∧ ∀ c ∈ ct, c ≠ '$' ∧ c ≠ '\n' := by
  induction cs generalizing p with
  | nil => simp [mathSplit] at h
  | cons c cs ih =>
    rw [mathSplit] at h
    cases hm : matchMathAt (c :: cs) with
    | some x =>
      rw [hm] at h
      obtain ⟨ct0, rest0⟩ := x
      obtain ⟨rfl, rfl, rfl⟩ : p = [] ∧ ct = ct0 ∧ r = rest0 := by
        simpa [eq_comm] using h
      obtain ⟨hdec, hct⟩ := matchMathAt_eq hm
      exact ⟨by simpa using hdec, hct⟩
    | none =>
      rw [hm] at h
      cases hb : mathSplit cs with
      | none => rw [hb] at h; simp at h
      | some y =>
        rw [hb] at h
        obtain ⟨p', ct', r'⟩ := y
        obtain ⟨rfl, rfl, rfl⟩ : p = c :: p' ∧ ct = ct' ∧ r = r' := by
          simpa [eq_comm] using h
        obtain ⟨hdec, hct⟩ := ih hb
        exact ⟨by rw [List.cons_append, ← hdec], hct⟩

theorem linkSplit_eq {cs p t u r : List Char}
    (h : linkSplit cs = some (p, t, u, r)) :
    cs = p ++ '[' :: (t ++ ']' :: '(' :: (u ++ ')' :: r)) ∧
      (∀ c ∈ t, c ≠ ']') ∧ ∀ c ∈ u, c ≠ ')' := by
  induction cs generalizing p with
  | nil => simp [linkSplit] at h
  | cons c cs ih =>
    rw [linkSplit] at h
    cases hm : matchLinkAt (c :: cs) with
    | some x =>
      rw [hm] at h
      obtain ⟨t0, u0, rest0⟩ := x
      obtain ⟨rfl, rfl, rfl, rfl⟩ : p = [] ∧ t = t0 ∧ u = u0 ∧ r = rest0 := by
        simpa [eq_comm] using h
      obtain ⟨hdec, ht, hu⟩ := matchLinkAt_eq hm
      exact ⟨by simpa using hdec, ht, hu⟩
    | none =>
      rw [hm] at h
      cases hb : linkSplit cs with
      | none => rw [hb] at h; simp at h
      | some y =>
        rw [hb] at h
        obtain ⟨p', t', u', r'⟩ := y
        obtain ⟨rfl, rfl, rfl, rfl⟩ : p = c :: p' ∧ t = t' ∧ u = u' ∧ r = r' := by
          simpa [eq_comm] using h
        obtain ⟨hdec, ht, hu⟩ := ih hb
        exact ⟨by rw [List.cons_append, ← hdec], ht, hu⟩

/-! ## Lemmas: a scanner finds nothing when its trigger character is absent -/

theorem boldSplit_none {cs : List Char} (h : '*' ∉ cs) : boldSplit cs = none := by
  cases hb : boldSplit cs with
  | none => rfl
  | some x =>
    obtain ⟨p, ct, r⟩ := x
    obtain ⟨hdec, -⟩ := boldSplit_eq hb
    exact absurd (by rw [hdec]; simp) h

theorem italicSplit_none {cs : List Char} (h : '*' ∉ cs) : italicSplit cs = none := by
  cases hb : italicSplit cs with
  | none => rfl
  | some x =>
    obtain ⟨p, ct, r⟩ := x
    obtain ⟨hdec, -⟩ := italicSplit_eq hb
    exact absurd (by rw [hdec]; simp) h

theorem codeSplit_none {cs : List Char} (h : '\x60' ∉ cs) : codeSplit cs = none := by
  cases hb : codeSplit cs with
  | none => rfl
  | some x =>
    obtain ⟨p, ct, r⟩ := x
    obtain ⟨hdec, -⟩ := codeSplit_eq hb
    exact absurd (by rw [hdec]; simp) h

theorem linkSplit_none {cs : List Char} (h : '[' ∉ cs) : linkSplit cs = none := by
  cases hb : linkSplit cs with
  | none => rfl
  | some x =>
    obtain ⟨p, t, u, r⟩ := x
    obtain ⟨hdec, -, -⟩ := linkSplit_eq hb
    exact absurd (by rw [hdec]; simp) h

theorem mathSplit_none {cs : List Char} (h : '$' ∉ cs) : mathSplit cs = none := by
  cases hb : mathSplit cs with
  | none => rfl
  | some x =>
    obtain ⟨p, ct, r⟩ := x
    obtain ⟨hdec, -⟩ := mathSplit_eq hb
    exact absurd (by rw [hdec]; simp) h

/-! ## Lemmas: the block-math splitter -/

theorem splitDD_eq {cs p r : List Char} (h : splitDD cs = some (p, r)) :
    cs = p ++ '$' :: '$' :: r := by
  induction cs generalizing p with
  | nil => simp [splitDD] at h
  | cons c1 a ih =>
    cases a with
    | nil => simp [splitDD] at h
    | cons c2 rest =>
      rw [splitDD] at h
      split at h
      case isTrue h12 =>
        obtain ⟨rfl, rfl⟩ : p = [] ∧ r = rest := by simpa [eq_comm] using h
        obtain ⟨h1, h2⟩ := And.intro (of_decide_eq_true (Bool.and_elim_left h12))
          (of_decide_eq_true (Bool.and_elim_right h12))
        subst h1 h2
        rfl
      case isFalse h12 =>
        cases hb : splitDD (c2 :: rest) with
        | none => rw [hb] at h; simp at h
        | some y =>
          rw [hb] at h
          obtain ⟨p', r'⟩ := y
          obtain ⟨rfl, rfl⟩ : p = c1 :: p' ∧ r = r' := by simpa [eq_comm] using h
          rw [List.cons_append, ← ih hb]

theorem splitDD_none {cs : List Char} (h : '$' ∉ cs) : splitDD cs = none := by
  cases hb : splitDD cs with
  | none => rfl
  | some x =>
    obtain ⟨p, r⟩ := x
    exact absurd (by rw [splitDD_eq hb]; simp) h

theorem splitDD_append {a b : List Char} (ha : splitDD a = none)
    (hl : a.getLast? ≠ some '$') :
    splitDD (a ++ '$' :: '$' :: b) = some (a, b) := by
  induction a with
  | nil => simp [splitDD]
  | cons c a ih =>
    cases a with
    | nil =>
      have hc : c ≠ '$' := by simpa using hl
      simp [splitDD, hc]
    | cons d a2 =>
      rw [splitDD] at ha
      split at ha
      case isTrue => simp at ha
      case isFalse h12 =>
        have hb : splitDD (d :: a2) = none := by
          cases hx : splitDD (d :: a2) with
          | none => rfl
          | some y => rw [hx] at ha; simp at ha
        have hl2 : (d :: a2).getLast? ≠ some '$' := by
          rwa [List.getLast?_cons_cons] at hl
        have := ih hb hl2
        rw [List.cons_append, List.cons_append, splitDD]
        rw [if_neg h12]
        rw [List.cons_append] at this
        rw [this]
        rfl

theorem findBlockMath_none {cs : List Char} (h : '$' ∉ cs) :
    findBlockMath cs = none := by
  simp [findBlockMath, splitDD_none h]

/-! ## Lemmas: strings and leaf concatenation -/

theorem mk_append (a b : List Char) :
    String.mk (a ++ b) = String.mk a ++ String.mk b := rfl

theorem empty_append_str (s : String) : "" ++ s = s := by
  cases s
  rfl

theorem append_empty_str (s : String) : s ++ "" = s := by
  cases s with
  | mk d =>
    show String.mk (d ++ []) = String.mk d
    rw [List.append_nil]

theorem leafConcat_append (xs ys : List Node) :
    leafConcat (xs ++ ys) = leafConcat xs ++ leafConcat ys := by
  induction xs with
  | nil => rw [List.nil_append, leafConcat, empty_append_str]
  | cons n ns ih =>
    rw [List.cons_append, leafConcat, leafConcat, ih, String.append_assoc]

/-! ## Lemmas: string literals as character lists -/

theorem str_empty : ("" : String) = String.mk [] := rfl

theorem str_boldmark : ("**" : String) = String.mk ['*', '*'] := rfl

theorem str_star : ("*" : String) = String.mk ['*'] := rfl

theorem str_tick : ("\x60" : String) = String.mk ['\x60'] := rfl

theorem str_lbrack : ("[" : String) = String.mk ['['] := rfl

theorem str_mid : ("](" : String) = String.mk [']', '('] := rfl

theorem str_rparen : (")" : String) = String.mk [')'] := rfl

theorem str_dd : ("$$" : String) = String.mk ['$', '$'] := rfl

theorem str_d : ("$" : String) = String.mk ['$'] := rfl

theorem str_nl : ("\n" : String) = String.mk ['\n'] := rfl

theorem mk_append_mk (a b : List Char) :
    String.mk a ++ String.mk b = String.mk (a ++ b) := rfl

theorem mk_eq_mk {a b : List Char} : String.mk a = String.mk b ↔ a = b :=
  ⟨fun h => congrArg String.data h, fun h => h ▸ rfl⟩

/-! ## Lemmas: the four global render loops -/

theorem renderBoldAux_mem {fuel : Nat} : ∀ {cs : List Char} {n : Node},
    n ∈ renderBoldAux fuel cs →
    (∃ t, n = Node.PlainText t) ∨
      ∃ ct, n = Node.Bold (String.mk ct) ∧ ∀ c ∈ ct, c ≠ '*' := by
  induction fuel with
  | zero => intro cs n hn; simp [renderBoldAux] at hn
  | succ fuel ih =>
    intro cs n hn
    rw [renderBoldAux] at hn
    cases hb : boldSplit cs with
    | none =>
      simp only [hb] at hn
      by_cases hcs : cs = []
      · rw [if_pos hcs] at hn; simp at hn
      · rw [if_neg hcs] at hn
        exact Or.inl ⟨_, List.mem_singleton.mp hn⟩
    | some x =>
      obtain ⟨p, ct, r⟩ := x
      simp only [hb] at hn
      rcases List.mem_append.mp hn with h1 | h2
      · by_cases hp : p = []
        · rw [if_pos hp] at h1; simp at h1
        · rw [if_neg hp] at h1
          exact Or.inl ⟨_, List.mem_singleton.mp h1⟩
      · rcases List.mem_cons.mp h2 with h2a | h2b
        · exact Or.inr ⟨ct, h2a, (boldSplit_eq hb).2⟩
        · exact ih h2b

theorem renderItalicAux_mem {fuel : Nat} : ∀ {cs : List Char} {n : Node},
    n ∈ renderItalicAux fuel cs →
    (∃ t, n = Node.PlainText t) ∨
      ∃ ct, n = Node.Italic (String.mk ct) ∧ ∀ c ∈ ct, c ≠ '*' := by
  induction fuel with
  | zero => intro cs n hn; simp [renderItalicAux] at hn
  | succ fuel ih =>
    intro cs n hn
    rw [renderItalicAux] at hn
    cases hb : italicSplit cs with
    | none =>
      simp only [hb] at hn
      by_cases hcs : cs = []
      · rw [if_pos hcs] at hn; simp at hn
      · rw [if_neg hcs] at hn
        exact Or.inl ⟨_, List.mem_singleton.mp hn⟩
    | some x =>
      obtain ⟨p, ct, r⟩ := x
      simp only [hb] at hn
      rcases List.mem_append.mp hn with h1 | h2
      · by_cases hp : p = []
        · rw [if_pos hp] at h1; simp at h1
        · rw [if_neg hp] at h1
          exact Or.inl ⟨_, List.mem_singleton.mp h1⟩
      · rcases List.mem_cons.mp h2 with h2a | h2b
        · exact Or.inr ⟨ct, h2a, (italicSplit_eq hb).2⟩
        · exact ih h2b

theorem renderCodeAux_mem {fuel : Nat} : ∀ {cs : List Char} {n : Node},
    n ∈ renderCodeAux fuel cs →
    (∃ t, n = Node.PlainText t) ∨
      ∃ ct, n = Node.InlineCode (String.mk ct) ∧ ∀ c ∈ ct, c ≠ '\x60' := by
  induction fuel with
  | zero => intro cs n hn; simp [renderCodeAux] at hn
  | succ fuel ih =>
    intro cs n hn
    rw [renderCodeAux] at hn
    cases hb : codeSplit cs with
    | none =>
      simp only [hb] at hn
      by_cases hcs : cs = []
      · rw [if_pos hcs] at hn; simp at hn
      · rw [if_neg hcs] at hn
        exact Or.inl ⟨_, List.mem_singleton.mp hn⟩
    | some x =>
      obtain ⟨p, ct, r⟩ := x
      simp only [hb] at hn
      rcases List.mem_append.mp hn with h1 | h2
      · by_cases hp : p = []
        · rw [if_pos hp] at h1; simp at h1
        · rw [if_neg hp] at h1
          exact Or.inl ⟨_, List.mem_singleton.mp h1⟩
      · rcases List.mem_cons.mp h2 with h2a | h2b
        · exact Or.inr ⟨ct, h2a, (codeSplit_eq hb).2⟩
        · exact ih h2b

theorem renderLinkAux_mem {fuel : Nat} : ∀ {cs : List Char} {n : Node},
    n ∈ renderLinkAux fuel cs →
    (∃ t, n = Node.PlainText t) ∨
      ∃ t u, n = Node.Link (String.mk t) (String.mk u) ∧
        (∀ c ∈ t, c ≠ ']') ∧ ∀ c ∈ u, c ≠ ')' := by
  induction fuel with
  | zero => intro cs n hn; simp [renderLinkAux] at hn
  | succ fuel ih =>
    intro cs n hn
    rw [renderLinkAux] at hn
    cases hb : linkSplit cs with
    | none =>
      simp only [hb] at hn
      by_cases hcs : cs = []
      · rw [if_pos hcs] at hn; simp at hn
      · rw [if_neg hcs] at hn
        exact Or.inl ⟨_, List.mem_singleton.mp hn⟩
    | some x =>
      obtain ⟨p, t, u, r⟩ := x
      simp only [hb] at hn
      rcases List.mem_append.mp hn with h1 | h2
      · by_cases hp : p = []
        · rw [if_pos hp] at h1; simp at h1
        · rw [if_neg hp] at h1
          exact Or.inl ⟨_, List.mem_singleton.mp h1⟩
      · rcases List.mem_cons.mp h2 with h2a | h2b
        · exact Or.inr ⟨t, u, h2a, (linkSplit_eq hb).2⟩
        · exact ih h2b

theorem renderBoldAux_leafConcat : ∀ (fuel : Nat) (cs : List Char),
    cs.length < fuel → leafConcat (renderBoldAux fuel cs) = String.mk cs := by
  intro fuel
  induction fuel with
  | zero => intro cs h; omega
  | succ fuel ih =>
    intro cs hlen
    rw [renderBoldAux]
    cases hb : boldSplit cs with
    | none =>
      by_cases hcs : cs = []
      · subst hcs; rw [if_pos rfl]; rfl
      · rw [if_neg hcs, leafConcat, leafConcat, leafText, append_empty_str]
    | some x =>
      obtain ⟨p, ct, r⟩ := x
      obtain ⟨hdec, -⟩ := boldSplit_eq hb
      have hr : r.length < fuel := by
        subst hdec
        simp only [List.length_append, List.length_cons] at hlen
        omega
      rw [leafConcat_append, leafConcat, leafText, ih r hr, hdec]
      by_cases hp : p = []
      · subst hp
        rw [if_pos rfl]
        simp only [leafConcat, str_empty, str_boldmark, mk_append_mk,
          mk_eq_mk]
        simp
      · rw [if_neg hp]
        simp only [leafConcat, leafText, str_empty, str_boldmark, mk_append_mk,
          mk_eq_mk]
        simp

theorem renderItalicAux_leafConcat : ∀ (fuel : Nat) (cs : List Char),
    cs.length < fuel → leafConcat (renderItalicAux fuel cs) = String.mk cs := by
  intro fuel
  induction fuel with
  | zero => intro cs h; omega
  | succ fuel ih =>
    intro cs hlen
    rw [renderItalicAux]
    cases hb : italicSplit cs with
    | none =>
      by_cases hcs : cs = []
      · subst hcs; rw [if_pos rfl]; rfl
      · rw [if_neg hcs, leafConcat, leafConcat, leafText, append_empty_str]
    | some x =>
      obtain ⟨p, ct, r⟩ := x
      obtain ⟨hdec, -⟩ := italicSplit_eq hb
      have hr : r.length < fuel := by
        subst hdec
        simp only [List.length_append, List.length_cons] at hlen
        omega
      rw [leafConcat_append, leafConcat, leafText, ih r hr, hdec]
      by_cases hp : p = []
      · subst hp
        rw [if_pos rfl]
        simp only [leafConcat, str_empty, str_star, mk_append_mk, mk_eq_mk]
        simp
      · rw [if_neg hp]
        simp only [leafConcat, leafText, str_empty, str_star, mk_append_mk,
          mk_eq_mk]
        simp

theorem renderCodeAux_leafConcat : ∀ (fuel : Nat) (cs : List Char),
    cs.length < fuel → leafConcat (renderCodeAux fuel cs) = String.mk cs := by
  intro fuel
  induction fuel with
  | zero => intro cs h; omega
  | succ fuel ih =>
    intro cs hlen
    rw [renderCodeAux]
    cases hb : codeSplit cs with
    | none =>
      by_cases hcs : cs = []
      · subst hcs; rw [if_pos rfl]; rfl
      · rw [if_neg hcs, leafConcat, leafConcat, leafText, append_empty_str]
    | some x =>
      obtain ⟨p, ct, r⟩ := x
      obtain ⟨hdec, -⟩ := codeSplit_eq hb
      have hr : r.length < fuel := by
        subst hdec
        simp only [List.length_append, List.length_cons] at hlen
        omega
      rw [leafConcat_append, leafConcat, leafText, ih r hr, hdec]
      by_cases hp : p = []
      · subst hp
        rw [if_pos rfl]
        simp only [leafConcat, str_empty, str_tick, mk_append_mk, mk_eq_mk]
        simp
      · rw [if_neg hp]
        simp only [leafConcat, leafText, str_empty, str_tick, mk_append_mk,
          mk_eq_mk]
        simp

theorem renderLinkAux_leafConcat : ∀ (fuel : Nat) (cs : List Char),
    cs.length < fuel → leafConcat (renderLinkAux fuel cs) = String.mk cs := by
  intro fuel
  induction fuel with
  | zero => intro cs h; omega
  | succ fuel ih =>
    intro cs hlen
    rw [renderLinkAux]
    cases hb : linkSplit cs with
    | none =>
      by_cases hcs : cs = []
      · subst hcs; rw [if_pos rfl]; rfl
      · rw [if_neg hcs, leafConcat, leafConcat, leafText, append_empty_str]
    | some x =>
      obtain ⟨p, t, u, r⟩ := x
      obtain ⟨hdec, -, -⟩ := linkSplit_eq hb
      have hr : r.length < fuel := by
        subst hdec
        simp only [List.length_append, List.length_cons] at hlen
        omega
      rw [leafConcat_append, leafConcat, leafText, ih r hr, hdec]
      by_cases hp : p = []
      · subst hp
        rw [if_pos rfl]
        simp only [leafConcat, str_empty, str_lbrack, str_mid, str_rparen,
          mk_append_mk, mk_eq_mk]
        simp
      · rw [if_neg hp]
        simp only [leafConcat, leafText, str_empty, str_lbrack, str_mid,
          str_rparen, mk_append_mk, mk_eq_mk]
        simp

/-! ## Lemmas: the inline emphasis resolver -/

theorem data_mk (cs : List Char) : (String.mk cs).data = cs := rfl

theorem mk_ne_empty {cs : List Char} (h : cs ≠ []) : String.mk cs ≠ "" := by
  rw [str_empty]
  exact fun e => h (mk_eq_mk.mp e)

theorem parseInlineMarkdown_leafConcat (cs : List Char) :
    leafConcat (parseInlineMarkdown (String.mk cs)) = String.mk cs := by
  by_cases hcs : cs = []
  · subst hcs
    rfl
  · rw [parseInlineMarkdown, if_neg (mk_ne_empty hcs)]
    dsimp only [data_mk]
    by_cases h1 : (boldSplit cs).isSome
    · rw [if_pos h1]
      exact renderBoldAux_leafConcat _ _ (Nat.lt_succ_self _)
    · rw [if_neg h1]
      by_cases h2 : (italicSplit cs).isSome
      · rw [if_pos h2]
        exact renderItalicAux_leafConcat _ _ (Nat.lt_succ_self _)
      · rw [if_neg h2]
        by_cases h3 : (codeSplit cs).isSome
        · rw [if_pos h3]
          exact renderCodeAux_leafConcat _ _ (Nat.lt_succ_self _)
        · rw [if_neg h3]
          by_cases h4 : (linkSplit cs).isSome
          · rw [if_pos h4]
            exact renderLinkAux_leafConcat _ _ (Nat.lt_succ_self _)
          · rw [if_neg h4, leafConcat, leafConcat, leafText, append_empty_str]

theorem parseInlineMarkdown_mem {s : String} {n : Node}
    (hn : n ∈ parseInlineMarkdown s) : isInlineNode n = true := by
  rw [parseInlineMarkdown] at hn
  split at hn
  · simp at hn
  · dsimp only at hn
    split at hn
    · rcases renderBoldAux_mem hn with ⟨t, rfl⟩ | ⟨ct, rfl, -⟩ <;> rfl
    · split at hn
      · rcases renderItalicAux_mem hn with ⟨t, rfl⟩ | ⟨ct, rfl, -⟩ <;> rfl
      · split at hn
        · rcases renderCodeAux_mem hn with ⟨t, rfl⟩ | ⟨ct, rfl, -⟩ <;> rfl
        · split at hn
          · rcases renderLinkAux_mem hn with ⟨t, rfl⟩ | ⟨t, u, rfl, -⟩ <;> rfl
          · rw [List.mem_singleton.mp hn]
            rfl

theorem parseInlineMarkdown_bold_only {s : String}
    (hb : (boldSplit s.data).isSome = true) :
    ∀ n ∈ parseInlineMarkdown s, isBoldOrPlain n = true := by
  intro n hn
  have hs : s ≠ "" := by
    intro e
    rw [e] at hb
    simp [boldSplit] at hb
  rw [parseInlineMarkdown, if_neg hs] at hn
  dsimp only at hn
  rw [if_pos hb] at hn
  rcases renderBoldAux_mem hn with ⟨t, rfl⟩ | ⟨ct, rfl, -⟩ <;> rfl

theorem isInlineNode_props {n : Node} (h : isInlineNode n = true) :
    hasBlockMath n = false ∧ isLineBreak n = false ∧ isTableNode n = false := by
  cases n <;> simp_all [isInlineNode, hasBlockMath, isLineBreak, isTableNode]

theorem hasBlockMathList_eq_false {ns : List Node} :
    hasBlockMathList ns = false ↔ ∀ n ∈ ns, hasBlockMath n = false := by
  induction ns with
  | nil => simp [hasBlockMathList]
  | cons n ns ih =>
    rw [hasBlockMathList, Bool.or_eq_false_iff, ih]
    simp

theorem countLB_eq_zero {ns : List Node}
    (h : ∀ n ∈ ns, isLineBreak n = false) : countLB ns = 0 := by
  rw [countLB, List.countP_eq_zero]
  intro a ha
  simp [h a ha]

theorem hasBlockMathList_append (xs ys : List Node) :
    hasBlockMathList (xs ++ ys) =
      (hasBlockMathList xs || hasBlockMathList ys) := by
  induction xs with
  | nil => rw [List.nil_append, hasBlockMathList, Bool.false_or]
  | cons n ns ih =>
    rw [List.cons_append, hasBlockMathList, hasBlockMathList, ih, Bool.or_assoc]

theorem hasBlockMathList_parseInlineMarkdown (s : String) :
    hasBlockMathList (parseInlineMarkdown s) = false := by
  rw [hasBlockMathList_eq_false]
  exact fun n hn => (isInlineNode_props (parseInlineMarkdown_mem hn)).1

theorem countLB_parseInlineMarkdown (s : String) :
    countLB (parseInlineMarkdown s) = 0 :=
  countLB_eq_zero fun _ hn => (isInlineNode_props (parseInlineMarkdown_mem hn)).2.1

/-! ## Lemmas: lines and the line/list formatter -/

theorem splitLines_ne_nil (cs : List Char) : splitLines cs ≠ [] := by
  cases cs with
  | nil => simp [splitLines]
  | cons c cs =>
    by_cases hc : c = '\n'
    · simp [splitLines, hc]
    · rw [splitLines, if_neg hc]
      rcases h : splitLines cs with _ | ⟨l, ls⟩ <;> simp

theorem splitLines_joinNL (cs : List Char) : joinNL (splitLines cs) = cs := by
  induction cs with
  | nil => rfl
  | cons c cs ih =>
    by_cases hc : c = '\n'
    · subst hc
      rw [splitLines, if_pos rfl]
      rcases h : splitLines cs with _ | ⟨l, ls⟩
      · exact absurd h (splitLines_ne_nil cs)
      · rw [h] at ih
        show '\n' :: joinNL (l :: ls) = '\n' :: cs
        rw [ih]
    · rw [splitLines, if_neg hc]
      rcases h : splitLines cs with _ | ⟨l, ls⟩
      · exact absurd h (splitLines_ne_nil cs)
      · rw [h] at ih
        show joinNL ((c :: l) :: ls) = c :: cs
        cases ls with
        | nil =>
          show c :: l = c :: cs
          exact congrArg (List.cons c) ih
        | cons l2 ls2 =>
          show (c :: l) ++ '\n' :: joinNL (l2 :: ls2) = c :: cs
          rw [← ih]
          rfl

theorem splitLines_length (cs : List Char) :
    (splitLines cs).length = cs.count '\n' + 1 := by
  induction cs with
  | nil => rfl
  | cons c cs ih =>
    by_cases hc : c = '\n'
    · subst hc
      rw [splitLines, if_pos rfl]
      simp only [List.length_cons, List.count_cons, ih]
      simp
    · rw [splitLines, if_neg hc]
      rcases h : splitLines cs with _ | ⟨l, ls⟩
      · exact absurd h (splitLines_ne_nil cs)
      · rw [h] at ih
        show ((c :: l) :: ls).length = (c :: cs).count '\n' + 1
        simp only [List.length_cons, List.count_cons] at ih ⊢
        simp [hc, ih]

theorem splitLines_no_nl {cs : List Char} (h : '\n' ∉ cs) :
    splitLines cs = [cs] := by
  induction cs with
  | nil => rfl
  | cons c cs ih =>
    have hc : c ≠ '\n' := fun e => h (e ▸ List.mem_cons_self _ _)
    have h2 : '\n' ∉ cs := fun m => h (List.mem_cons_of_mem _ m)
    rw [splitLines, if_neg hc, ih h2]

theorem parseLine_inline {l : List Char} (h1 : isBulletLine l = false)
    (h2 : isNumberedLine l = false) :
    parseLine l = parseInlineMarkdown (String.mk l) := by
  rw [parseLine, if_neg (by simp [h1]), if_neg (by simp [h2])]

theorem countLB_parseLine (l : List Char) : countLB (parseLine l) = 0 := by
  rw [parseLine]
  split
  · rfl
  · split
    · rfl
    · exact countLB_parseInlineMarkdown _

theorem hasBlockMath_parseLine (l : List Char) :
    hasBlockMathList (parseLine l) = false := by
  rw [parseLine]
  split
  · simp [hasBlockMathList, hasBlockMath, hasBlockMathList_parseInlineMarkdown]
  · split
    · simp [hasBlockMathList, hasBlockMath, hasBlockMathList_parseInlineMarkdown]
    · exact hasBlockMathList_parseInlineMarkdown _

theorem joinLines_leafConcat : ∀ ls : List (List Char),
    (∀ l ∈ ls, isBulletLine l = false ∧ isNumberedLine l = false) →
    leafConcat (joinLines ls) = String.mk (joinNL ls) := by
  intro ls
  induction ls with
  | nil => intro _; rfl
  | cons l ls ih =>
    intro hall
    obtain ⟨hb, hn⟩ := hall l (List.mem_cons_self _ _)
    cases ls with
    | nil =>
      show leafConcat (parseLine l) = String.mk l
      rw [parseLine_inline hb hn]
      exact parseInlineMarkdown_leafConcat l
    | cons l2 ls2 =>
      show leafConcat (parseLine l ++ Node.LineBreak :: joinLines (l2 :: ls2)) =
        String.mk (joinNL (l :: l2 :: ls2))
      rw [leafConcat_append, leafConcat, parseLine_inline hb hn,
        parseInlineMarkdown_leafConcat, leafText]
      rw [ih fun x hx => hall x (List.mem_cons_of_mem _ hx)]
      rw [str_nl, mk_append_mk, mk_append_mk]
      rfl

theorem joinLines_countLB : ∀ ls : List (List Char), ls ≠ [] →
    countLB (joinLines ls) = ls.length - 1 := by
  intro ls
  induction ls with
  | nil => intro h; exact absurd rfl h
  | cons l ls ih =>
    intro _
    cases ls with
    | nil => simp [joinLines, countLB_parseLine]
    | cons l2 ls2 =>
      show countLB (parseLine l ++ Node.LineBreak :: joinLines (l2 :: ls2)) =
        (l :: l2 :: ls2).length - 1
      rw [countLB, List.countP_append, List.countP_cons]
      have h1 := countLB_parseLine l
      have h2 := ih (by simp)
      rw [countLB] at h1 h2
      rw [h1, h2]
      simp only [isLineBreak, if_pos, List.length_cons]
      omega

theorem hasBlockMath_joinLines : ∀ ls : List (List Char),
    hasBlockMathList (joinLines ls) = false := by
  intro ls
  induction ls with
  | nil => rfl
  | cons l ls ih =>
    cases ls with
    | nil => exact hasBlockMath_parseLine l
    | cons l2 ls2 =>
      show hasBlockMathList
        (parseLine l ++ Node.LineBreak :: joinLines (l2 :: ls2)) = false
      rw [hasBlockMathList_append, hasBlockMathList]
      rw [hasBlockMath_parseLine, ih]
      rfl

theorem parseMarkdown_countLB (s : String) :
    countLB (parseMarkdown s) = s.data.count '\n' := by
  rw [parseMarkdown]
  split
  case isTrue h => rw [h]; rfl
  case isFalse h =>
    rw [joinLines_countLB (splitLines s.data) (splitLines_ne_nil _),
      splitLines_length]
    omega

theorem parseMarkdown_leafConcat {cs : List Char}
    (h : ∀ l ∈ splitLines cs, isBulletLine l = false ∧ isNumberedLine l = false) :
    leafConcat (parseMarkdown (String.mk cs)) = String.mk cs := by
  by_cases hcs : cs = []
  · subst hcs; rfl
  · rw [parseMarkdown, if_neg (mk_ne_empty hcs)]
    dsimp only [data_mk]
    rw [joinLines_leafConcat _ h, splitLines_joinNL]

theorem hasBlockMath_parseMarkdown (s : String) :
    hasBlockMathList (parseMarkdown s) = false := by
  rw [parseMarkdown]
  split
  · rfl
  · exact hasBlockMath_joinLines _

/-! ## Lemmas: the inline math extractor -/

theorem parseInlineContentAux_no_math {fuel : Nat} {cs : List Char}
    (h : mathSplit cs = none) :
    parseInlineContentAux (fuel + 1) cs = parseMarkdown (String.mk cs) := by
  rw [parseInlineContentAux, h]

theorem parseInlineContent_no_dollar {cs : List Char} (h : '$' ∉ cs) :
    parseInlineContent (String.mk cs) = parseMarkdown (String.mk cs) := by
  rw [parseInlineContent]
  dsimp only [data_mk]
  exact parseInlineContentAux_no_math (mathSplit_none h)

theorem hasBlockMath_parseInlineContentAux : ∀ (fuel : Nat) (cs : List Char),
    hasBlockMathList (parseInlineContentAux fuel cs) = false := by
  intro fuel
  induction fuel with
  | zero => intro cs; rfl
  | succ fuel ih =>
    intro cs
    rw [parseInlineContentAux]
    cases hm : mathSplit cs with
    | none => exact hasBlockMath_parseMarkdown _
    | some x =>
      obtain ⟨p, ct, r⟩ := x
      simp only [hm]
      rw [hasBlockMathList_append, hasBlockMathList]
      by_cases hp : p = []
      · rw [if_pos hp]
        simp [hasBlockMathList, hasBlockMath, ih]
      · rw [if_neg hp]
        simp [hasBlockMath_parseMarkdown, hasBlockMath, ih]

theorem hasBlockMath_parseInlineContent (s : String) :
    hasBlockMathList (parseInlineContent s) = false := by
  rw [parseInlineContent]
  exact hasBlockMath_parseInlineContentAux _ _

/-! ## Lemmas: the table extractor -/

theorem hasBlockMath_renderMarkdownTable (s : String) :
    hasBlockMath (renderMarkdownTable s) = false := by
  simp only [renderMarkdownTable]
  split <;> rfl

theorem hasBlockMath_renderTableOrInline (m : String) :
    hasBlockMathList (renderTableOrInline m) = false := by
  rw [renderTableOrInline]
  split
  · simp [hasBlockMathList, hasBlockMath_renderMarkdownTable]
  · exact hasBlockMath_parseInlineContent m

theorem hasBlockMath_scanTablesAux : ∀ (fuel : Nat) (cs : List Char) (b : Bool),
    hasBlockMathList (scanTablesAux fuel cs b) = false := by
  intro fuel
  induction fuel with
  | zero =>
    intro cs b
    rw [scanTablesAux]
    split
    · rfl
    · exact hasBlockMath_parseInlineContent _
  | succ fuel ih =>
    intro cs b
    rw [scanTablesAux]
    cases hf : findTable cs b with
    | none =>
      simp only [hf]
      split
      · rfl
      · exact hasBlockMath_parseInlineContent _
    | some x =>
      obtain ⟨p, m, r⟩ := x
      simp only [hf]
      rw [hasBlockMathList_append, hasBlockMathList_append]
      by_cases hp : p = []
      · rw [if_pos hp]
        simp [hasBlockMathList, hasBlockMath_renderTableOrInline, ih]
      · rw [if_neg hp]
        simp [hasBlockMath_parseInlineContent, hasBlockMath_renderTableOrInline, ih]

theorem hasBlockMath_tablePhase (cs : List Char) :
    hasBlockMathList (tablePhase cs) = false :=
  hasBlockMath_scanTablesAux _ _ _

theorem restAfterLine_none {cs : List Char} (h : '\n' ∉ cs) :
    restAfterLine cs = none := by
  rw [restAfterLine]
  have : cs.dropWhile (· ≠ '\n') = [] := by
    rw [List.dropWhile_eq_nil_iff]
    intro x hx
    simp
    exact fun e => h (e ▸ hx)
  rw [this]

theorem matchTableBody_none_of_no_nl {cs : List Char} (h : '\n' ∉ cs) :
    matchTableBody cs = none := by
  rw [matchTableBody, restAfterLine_none h]

theorem isPipeLine_mem {L : List Char} (h : isPipeLine L = true) : '|' ∈ L := by
  rw [isPipeLine] at h
  have hh : L.head? = some '|' := by
    have := Bool.and_elim_right (Bool.and_elim_left h)
    simpa using this
  cases L with
  | nil => simp at hh
  | cons c cs =>
    simp at hh
    exact hh ▸ List.mem_cons_self _ _

theorem matchTableBody_none_of_no_pipe {cs : List Char} (h : '|' ∉ cs) :
    matchTableBody cs = none := by
  rw [matchTableBody]
  cases hr : restAfterLine cs with
  | none => rfl
  | some r1 =>
    have hp : isPipeLine (lineOf cs) = false := by
      cases hq : isPipeLine (lineOf cs)
      · rfl
      · exact absurd
          ((List.takeWhile_sublist _).subset (isPipeLine_mem hq)) h
    simp [hp]

theorem findTableLoop_none_of_no_nl {cs : List Char} (h : '\n' ∉ cs) :
    findTableLoop cs = none := by
  induction cs with
  | nil => rfl
  | cons c cs ih =>
    have hc : c ≠ '\n' := fun e => h (e ▸ List.mem_cons_self _ _)
    have h2 : '\n' ∉ cs := fun m => h (List.mem_cons_of_mem _ m)
    rw [findTableLoop, if_neg hc, ih h2]
    rfl

theorem findTableLoop_none_of_no_pipe {cs : List Char} (h : '|' ∉ cs) :
    findTableLoop cs = none := by
  induction cs with
  | nil => rfl
  | cons c cs ih =>
    have h2 : '|' ∉ cs := fun m => h (List.mem_cons_of_mem _ m)
    rw [findTableLoop]
    by_cases hc : c = '\n'
    · rw [if_pos hc, matchTableBody_none_of_no_pipe h2, ih h2]
      rfl
    · rw [if_neg hc, ih h2]
      rfl

theorem findTable_none {cs : List Char} (b : Bool)
    (h : '\n' ∉ cs ∨ '|' ∉ cs) : findTable cs b = none := by
  have hbody : matchTableBody cs = none := by
    cases h with
    | inl h => exact matchTableBody_none_of_no_nl h
    | inr h => exact matchTableBody_none_of_no_pipe h
  have hloop : findTableLoop cs = none := by
    cases h with
    | inl h => exact findTableLoop_none_of_no_nl h
    | inr h => exact findTableLoop_none_of_no_pipe h
  rw [findTable]
  split
  · rw [hbody, hloop]
  · exact hloop

theorem tablePhase_inline {cs : List Char} (h : findTable cs true = none) :
    tablePhase cs = if cs = [] then [] else parseInlineContent (String.mk cs) := by
  rw [tablePhase, scanTablesAux, h]

/-! ## Lemmas: the block splitter -/

theorem splitBlockMathAux_of_none {fuel : Nat} {cs : List Char}
    (h : findBlockMath cs = none) : splitBlockMathAux (fuel + 1) cs = [cs] := by
  rw [splitBlockMathAux, h]

theorem parseContent_single {s : String} (h : findBlockMath s.data = none) :
    parseContent s = processPart s.data := by
  rw [parseContent, splitBlockMath, splitBlockMathAux_of_none h]
  simp

theorem processPart_not_math {cs : List Char}
    (h : (startsWithDD cs && endsWithDD cs) = false) :
    processPart cs = tablePhase cs := by
  rw [processPart, if_neg (by simp [h])]

theorem startsWithDD_false {cs : List Char} (h : '$' ∉ cs) :
    startsWithDD cs = false := by
  match cs with
  | [] => rfl
  | [c] => rfl
  | c1 :: c2 :: rest =>
    have hc : c1 ≠ '$' := fun e => h (e ▸ List.mem_cons_self _ _)
    simp [startsWithDD, hc]

/-! ## Additional helper lemmas for the claims -/

theorem mk_data (s : String) : String.mk s.data = s := by
  cases s
  rfl

theorem str_eq_empty_iff {s : String} : s = "" ↔ s.data = [] := by
  cases s
  rw [str_empty, mk_eq_mk]

theorem takeWhile_append_all {p : Char → Bool} {a : List Char} (b : List Char)
    (ha : ∀ x ∈ a, p x = true) :
    (a ++ b).takeWhile p = a ++ b.takeWhile p ∧
      (a ++ b).dropWhile p = b.dropWhile p := by
  induction a with
  | nil => simp
  | cons x a ih =>
    have hx : p x = true := ha x (List.mem_cons_self _ _)
    have h2 := ih fun y hy => ha y (List.mem_cons_of_mem _ hy)
    rw [List.cons_append, List.takeWhile_cons, List.dropWhile_cons, hx]
    simp [h2.1, h2.2]

/-! ## The claims -/

/-- Claim C2 (counterexample): the input `"a | b\n---|---\n1 | 2\n"`,
whose lines do not begin and end with a pipe, is not recognized as a
table: the output is plain text lines with line breaks and contains no
`Table` node, contrary to the claim that it produces exactly one
`Table` node. -/
theorem claim_C2_counterexample :
    parseContent "a | b\n---|---\n1 | 2\n" =
      [Node.PlainText "a | b", Node.LineBreak, Node.PlainText "---|---",
       Node.LineBreak, Node.PlainText "1 | 2", Node.LineBreak] ∧
    (parseContent "a | b\n---|---\n1 | 2\n").all
      (fun n => !isTableNode n) = true :=
  ⟨rfl, rfl⟩

/-- Claim C2 (amended): the table extractor requires the header line,
the separator line and the data lines each to begin and end with a
pipe character; the pipe-delimited input
`"|a|b|\n|---|---|\n|1|2|\n"` produces exactly one `Table` node with
headers `["a","b"]` and rows `[["1","2"]]`. -/
theorem claim_C2_amended :
    parseContent "|a|b|\n|---|---|\n|1|2|\n" =
      [Node.Table ["a", "b"] [["1", "2"]]] :=
  rfl

/-- Claim C3 (counterexample): the input `"$$"` is a double-dollar
opening marker with no matching closing marker later in the string,
yet it is turned into a `BlockMath` node with an empty expression,
because the `startsWith`/`endsWith` delimiter tests overlap on it. -/
theorem claim_C3_counterexample :
    parseContent "$$" = [Node.BlockMath ""] :=
  rfl

/-- Claim C3 (amended): an unterminated double-dollar opening marker
is never turned into a `BlockMath` node and the remainder stays plain
content, except for the degenerate leftovers `"$$"` and `"$$$"` where
the two delimiter tests overlap; in particular `"$$unterminated"`
yields the literal plain text and, in general, any input with an
opening `$$`, no complete `$$...$$` match, and not ending in `$$`
produces no `BlockMath` node anywhere in its output. -/
theorem claim_C3_amended :
    parseContent "$$unterminated" = [Node.PlainText "$$unterminated"] ∧
    ∀ s : String, (splitDD s.data).isSome = true →
      findBlockMath s.data = none → endsWithDD s.data = false →
      hasBlockMathList (parseContent s) = false := by
  refine ⟨rfl, fun s hopen hnone hends => ?_⟩
  rw [parseContent_single hnone,
    processPart_not_math (by rw [hends, Bool.and_false])]
  exact hasBlockMath_tablePhase _

/-- Claim C3 (witness): the amended theorem applied to the concrete
unterminated input `"$$x"`. -/
theorem claim_C3_witness : hasBlockMathList (parseContent "$$x") = false :=
  claim_C3_amended.2 "$$x" rfl rfl rfl

/-- Claim C6: one `LineBreak` is emitted per newline — between
consecutive lines, never after the final line — so the number of
`LineBreak` nodes equals the number of newline characters; and
`"- one\n- two"` produces two bullet list items separated by a single
`LineBreak`, with contents `"one"` and `"two"`. -/
theorem claim_C6 :
    (∀ s : String, countLB (parseMarkdown s) = s.data.count '\n') ∧
    parseContent "- one\n- two" =
      [Node.ListItem "•" [Node.PlainText "one"], Node.LineBreak,
       Node.ListItem "•" [Node.PlainText "two"]] :=
  ⟨parseMarkdown_countLB, rfl⟩

/-- Claim C8: the parser is total — it is a function defined on every
string, the empty string included, and always returns a node
sequence; the empty input returns the empty sequence. -/
theorem claim_C8 :
    parseContent "" = [] ∧ ∀ s : String, ∃ ns : List Node, parseContent s = ns :=
  ⟨rfl, fun _ => ⟨_, rfl⟩⟩

/-- Claim C10: block-math pairing is non-greedy and leftmost — a
block runs from the first `$$` to the nearest following `$$`, and
splitting resumes after it — so `"$$a$$b$$c$$"` yields `BlockMath "a"`,
plain `"b"`, `BlockMath "c"`; in general, splitting
`a ++ "$$" ++ b ++ "$$" ++ c` (with no `$$` inside `a`, `b`, `c` and no
marker straddling a boundary) yields exactly the parts `a`,
`"$$" ++ b ++ "$$"`, `c`. -/
theorem claim_C10 :
    parseContent "$$a$$b$$c$$" =
      [Node.BlockMath "a", Node.PlainText "b", Node.BlockMath "c"] ∧
    ∀ a b c : List Char, splitDD a = none → a.getLast? ≠ some '$' →
      splitDD b = none → b.getLast? ≠ some '$' → splitDD c = none →
      splitBlockMath (a ++ '$' :: '$' :: (b ++ '$' :: '$' :: c)) =
        [a, '$' :: '$' :: (b ++ ['$', '$']), c] := by
  refine ⟨rfl, fun a b c ha hal hb hbl hc => ?_⟩
  have h1 : splitDD (a ++ '$' :: '$' :: (b ++ '$' :: '$' :: c)) =
      some (a, b ++ '$' :: '$' :: c) := splitDD_append ha hal
  have h2 : splitDD (b ++ '$' :: '$' :: c) = some (b, c) := splitDD_append hb hbl
  have hfind : findBlockMath (a ++ '$' :: '$' :: (b ++ '$' :: '$' :: c)) =
      some (a, '$' :: '$' :: (b ++ ['$', '$']), c) := by
    simp only [findBlockMath, h1, h2]
  have hfc : findBlockMath c = none := by
    simp only [findBlockMath, hc]
  have hlen : (a ++ '$' :: '$' :: (b ++ '$' :: '$' :: c)).length =
      ((a ++ '$' :: '$' :: (b ++ '$' :: '$' :: c)).length - 1) + 1 := by
    simp only [List.length_append, List.length_cons]
    omega
  rw [splitBlockMath, splitBlockMathAux]
  simp only [hfind]
  rw [hlen, splitBlockMathAux_of_none hfc]

/-- Claim C10 (witness): the general splitting law applied at
`a = "x"`, `b = "y"`, `c = "z"`. -/
theorem claim_C10_witness :
    splitBlockMath ('x' :: '$' :: '$' :: 'y' :: '$' :: '$' :: ['z']) =
      [['x'], ['$', '$', 'y', '$', '$'], ['z']] :=
  claim_C10.2 ['x'] ['y'] ['z'] rfl (by decide) rfl (by decide) rfl

/-- Every node the inline emphasis resolver emits, together with its
delimiter-exclusion facts: plain text, or one of the four class nodes
whose captured content excludes its own closing delimiter. -/
theorem parseInlineMarkdown_classes {s : String} {n : Node}
    (hn : n ∈ parseInlineMarkdown s) :
    (∃ t, n = Node.PlainText t) ∨
    (∃ ct, n = Node.Bold (String.mk ct) ∧ ∀ c ∈ ct, c ≠ '*') ∨
    (∃ ct, n = Node.Italic (String.mk ct) ∧ ∀ c ∈ ct, c ≠ '*') ∨
    (∃ ct, n = Node.InlineCode (String.mk ct) ∧ ∀ c ∈ ct, c ≠ '\x60') ∨
    (∃ t u, n = Node.Link (String.mk t) (String.mk u) ∧
      (∀ c ∈ t, c ≠ ']') ∧ ∀ c ∈ u, c ≠ ')') := by
  rw [parseInlineMarkdown] at hn
  split at hn
  · simp at hn
  · dsimp only at hn
    split at hn
    · rcases renderBoldAux_mem hn with h | h
      · exact Or.inl h
      · exact Or.inr (Or.inl h)
    · split at hn
      · rcases renderItalicAux_mem hn with h | h
        · exact Or.inl h
        · exact Or.inr (Or.inr (Or.inl h))
      · split at hn
        · rcases renderCodeAux_mem hn with h | h
          · exact Or.inl h
          · exact Or.inr (Or.inr (Or.inr (Or.inl h)))
        · split at hn
          · rcases renderLinkAux_mem hn with h | h
            · exact Or.inl h
            · exact Or.inr (Or.inr (Or.inr (Or.inr h)))
          · exact Or.inl ⟨_, List.mem_singleton.mp hn⟩

/-- Claim C1 (counterexample): on the line `"**bold *and* text**"` the
bold pattern has no match at all — its content class excludes
asterisks — so the italic class wins and the output is not a single
`Bold` node. -/
theorem claim_C1_counterexample :
    parseInlineMarkdown "**bold *and* text**" =
      [Node.PlainText "*", Node.Italic "bold ", Node.PlainText "and",
       Node.Italic " text", Node.PlainText "*"] ∧
    parseInlineMarkdown "**bold *and* text**" ≠ [Node.Bold "bold *and* text"] :=
  ⟨rfl, fun h => absurd (congrArg List.length h) (by decide)⟩

/-- Claim C1 (amended): the inline emphasis resolver applies only the
first of the four classes (bold, italic, inline code, link, in that
fixed priority) that has a match anywhere in the line — when the bold
pattern matches, the output contains only `PlainText` and `Bold`
nodes.  A bold match however requires asterisk-free content, so
`"**bold *and* text**"` has no bold match anywhere and resolves
through the italic class, not to a single `Bold` node. -/
theorem claim_C1_amended :
    (∀ s : String, (boldSplit s.data).isSome = true →
      ∀ n ∈ parseInlineMarkdown s, isBoldOrPlain n = true) ∧
    parseInlineMarkdown "**a** and **b**" =
      [Node.Bold "a", Node.PlainText " and ", Node.Bold "b"] ∧
    parseInlineMarkdown "**bold *and* text**" =
      [Node.PlainText "*", Node.Italic "bold ", Node.PlainText "and",
       Node.Italic " text", Node.PlainText "*"] :=
  ⟨fun _ hb => parseInlineMarkdown_bold_only hb, rfl, rfl⟩

/-- Claim C1 (witness): the first-class-wins law applied on the line
`"**a** x"`, where the bold class has a match. -/
theorem claim_C1_witness : isBoldOrPlain (Node.Bold "a") = true :=
  claim_C1_amended.1 "**a** x" rfl (Node.Bold "a")
    (show Node.Bold "a" ∈ [Node.Bold "a", Node.PlainText " x"] from
      List.mem_cons_self _ _)

/-- Claim C9: delimiter exclusion — every `Bold` or `Italic` content
contains no asterisk, every `InlineCode` content no backtick, every
`Link` text no closing bracket and every `Link` url no closing
parenthesis, for every output node of the inline emphasis resolver on
any line. -/
theorem claim_C9 : ∀ (s : String) (n : Node), n ∈ parseInlineMarkdown s →
    (∀ t, n = Node.Bold t → '*' ∉ t.data) ∧
    (∀ t, n = Node.Italic t → '*' ∉ t.data) ∧
    (∀ t, n = Node.InlineCode t → '\x60' ∉ t.data) ∧
    (∀ t u, n = Node.Link t u → ']' ∉ t.data ∧ ')' ∉ u.data) := by
  intro s n hn
  rcases parseInlineMarkdown_classes hn with ⟨t0, rfl⟩ | ⟨ct, rfl, hct⟩ |
    ⟨ct, rfl, hct⟩ | ⟨ct, rfl, hct⟩ | ⟨t0, u0, rfl, hlt, hlu⟩
  · exact ⟨fun t ht => Node.noConfusion ht, fun t ht => Node.noConfusion ht,
      fun t ht => Node.noConfusion ht, fun t u ht => Node.noConfusion ht⟩
  · refine ⟨?_, fun t ht => Node.noConfusion ht,
      fun t ht => Node.noConfusion ht, fun t u ht => Node.noConfusion ht⟩
    intro t ht m
    injection ht with h
    rw [← h] at m
    exact hct _ m rfl
  · refine ⟨fun t ht => Node.noConfusion ht, ?_,
      fun t ht => Node.noConfusion ht, fun t u ht => Node.noConfusion ht⟩
    intro t ht m
    injection ht with h
    rw [← h] at m
    exact hct _ m rfl
  · refine ⟨fun t ht => Node.noConfusion ht, fun t ht => Node.noConfusion ht,
      ?_, fun t u ht => Node.noConfusion ht⟩
    intro t ht m
    injection ht with h
    rw [← h] at m
    exact hct _ m rfl
  · refine ⟨fun t ht => Node.noConfusion ht, fun t ht => Node.noConfusion ht,
      fun t ht => Node.noConfusion ht, ?_⟩
    intro t u ht
    injection ht with h1 h2
    constructor
    · intro m
      rw [← h1] at m
      exact hlt _ m rfl
    · intro m
      rw [← h2] at m
      exact hlu _ m rfl

/-- Claim C9 (witness): the exclusion facts instantiated on the line
`"**a**"` and its `Bold` output node. -/
theorem claim_C9_witness : '*' ∉ ("a" : String).data :=
  (claim_C9 "**a**" (Node.Bold "a")
    (show Node.Bold "a" ∈ [Node.Bold "a"] from List.mem_singleton.mpr rfl)).1
    "a" rfl

/-- Claim C7 (counterexample): the bullet marker is not kept — the
`ListItem` produced from `"- one"` carries the fixed glyph `"•"`, not
the captured `"-"`, and `"- one"` and `"* one"` produce identical
output, so the label cannot be the literal captured marker. -/
theorem claim_C7_counterexample :
    parseContent "- one" = [Node.ListItem "•" [Node.PlainText "one"]] ∧
    ("•" : String) ≠ "-" ∧
    parseContent "- one" = parseContent "* one" :=
  ⟨rfl, by decide, rfl⟩

/-- Claim C7 (amended): a numbered list line keeps the literal
captured digits (label = digits followed by a period, never
renumbered); a bullet list line is always labelled with the fixed
glyph `"•"` whatever its source marker was; in both cases the marker
and the following whitespace run are removed from the content. -/
theorem claim_C7_amended :
    (∀ rest : List Char,
      parseLine ('-' :: ' ' :: rest) =
        [Node.ListItem "•"
          (parseInlineMarkdown (String.mk (rest.dropWhile isSpaceJS)))] ∧
      parseLine ('*' :: ' ' :: rest) =
        [Node.ListItem "•"
          (parseInlineMarkdown (String.mk (rest.dropWhile isSpaceJS)))]) ∧
    ∀ ds rest : List Char, ds ≠ [] → (∀ c ∈ ds, isDigitJS c = true) →
      parseLine (ds ++ '.' :: ' ' :: rest) =
        [Node.ListItem (String.mk (ds ++ ['.']))
          (parseInlineMarkdown (String.mk (rest.dropWhile isSpaceJS)))] := by
  constructor
  · intro rest
    constructor
    · rw [parseLine,
        if_pos (show isBulletLine ('-' :: ' ' :: rest) = true from rfl)]
      show [Node.ListItem "•"
        (parseInlineMarkdown (String.mk ((' ' :: rest).dropWhile isSpaceJS)))] = _
      rw [List.dropWhile_cons, if_pos (show isSpaceJS ' ' = true from rfl)]
    · rw [parseLine,
        if_pos (show isBulletLine ('*' :: ' ' :: rest) = true from rfl)]
      show [Node.ListItem "•"
        (parseInlineMarkdown (String.mk ((' ' :: rest).dropWhile isSpaceJS)))] = _
      rw [List.dropWhile_cons, if_pos (show isSpaceJS ' ' = true from rfl)]
  · intro ds rest hne hdig
    obtain ⟨d, ds2, rfl⟩ : ∃ d ds2, ds = d :: ds2 := by
      cases ds with
      | nil => exact absurd rfl hne
      | cons d ds2 => exact ⟨d, ds2, rfl⟩
    have hd := hdig d (List.mem_cons_self _ _)
    have hd1 : d ≠ '-' := by
      intro e
      rw [e] at hd
      exact absurd hd (by decide)
    have hd2 : d ≠ '*' := by
      intro e
      rw [e] at hd
      exact absurd hd (by decide)
    have hbul : isBulletLine ((d :: ds2) ++ '.' :: ' ' :: rest) = false := by
      cases ds2 with
      | nil => simp [isBulletLine, hd1, hd2]
      | cons d2 ds3 => simp [List.cons_append, isBulletLine, hd1, hd2]
    have hbul2 : ¬(isBulletLine ((d :: ds2) ++ '.' :: ' ' :: rest) = true) := by
      rw [hbul]
      exact Bool.false_ne_true
    have htw := takeWhile_append_all (p := isDigitJS) (a := d :: ds2)
      ('.' :: ' ' :: rest) hdig
    have h1 : ((d :: ds2) ++ '.' :: ' ' :: rest).takeWhile isDigitJS =
        d :: ds2 := by
      rw [htw.1, show ('.' :: ' ' :: rest).takeWhile isDigitJS = [] from rfl,
        List.append_nil]
    have h2 : ((d :: ds2) ++ '.' :: ' ' :: rest).dropWhile isDigitJS =
        '.' :: ' ' :: rest := by
      rw [htw.2]
      rfl
    have hnum : isNumberedLine ((d :: ds2) ++ '.' :: ' ' :: rest) = true := by
      rw [isNumberedLine]
      simp only [h1, h2]
      decide
    rw [parseLine, if_neg hbul2, if_pos hnum, h1, h2]
    show [Node.ListItem (String.mk ((d :: ds2) ++ ['.']))
      (parseInlineMarkdown (String.mk ((' ' :: rest).dropWhile isSpaceJS)))] = _
    rw [List.dropWhile_cons, if_pos (show isSpaceJS ' ' = true from rfl)]

/-- Claim C7 (witness): the amended law applied to the concrete
numbered line `"1. x"`. -/
theorem claim_C7_witness :
    parseLine ('1' :: '.' :: ' ' :: ['x']) =
      [Node.ListItem "1." (parseInlineMarkdown "x")] :=
  claim_C7_amended.2 ['1'] ['x'] (by decide) (by decide)

/-- Claim C4 (counterexample): `"a\nb"` contains none of the five
special characters, yet the output is not a single `PlainText` node —
the newline splits it into two nodes around a `LineBreak`. -/
theorem claim_C4_counterexample :
    parseContent "a\nb" =
      [Node.PlainText "a", Node.LineBreak, Node.PlainText "b"] ∧
    parseContent "a\nb" ≠ [Node.PlainText "a\nb"] :=
  ⟨rfl, fun h => absurd (congrArg List.length h) (by decide)⟩

/-- Claim C4 (amended): for every nonempty input string that contains
none of dollar, asterisk, backtick, left bracket, or pipe — and that
moreover contains no newline and does not start with a bullet or
numbered list marker — the output is exactly one `PlainText` node
equal to the input.  (A newline produces a `LineBreak` and splits the
text, a list marker produces a `ListItem`, and the empty string yields
the empty sequence.) -/
theorem claim_C4_amended : ∀ s : String, s ≠ "" →
    (∀ c ∈ s.data,
      c ≠ '$' ∧ c ≠ '*' ∧ c ≠ '\x60' ∧ c ≠ '[' ∧ c ≠ '|' ∧ c ≠ '\n') →
    isBulletLine s.data = false → isNumberedLine s.data = false →
    parseContent s = [Node.PlainText s] := by
  intro s hne hall hbul hnum
  have hd : '$' ∉ s.data := fun m => ((hall _ m).1) rfl
  have hstar : '*' ∉ s.data := fun m => ((hall _ m).2.1) rfl
  have htick : '\x60' ∉ s.data := fun m => ((hall _ m).2.2.1) rfl
  have hlb : '[' ∉ s.data := fun m => ((hall _ m).2.2.2.1) rfl
  have hpipe : '|' ∉ s.data := fun m => ((hall _ m).2.2.2.2.1) rfl
  have hnl : '\n' ∉ s.data := fun m => ((hall _ m).2.2.2.2.2) rfl
  have hnil : s.data ≠ [] := fun e => hne (str_eq_empty_iff.mpr e)
  rw [parseContent_single (findBlockMath_none hd)]
  rw [processPart_not_math (by rw [startsWithDD_false hd, Bool.false_and])]
  rw [tablePhase_inline (findTable_none true (Or.inr hpipe))]
  rw [if_neg hnil, parseInlineContent_no_dollar hd]
  rw [parseMarkdown, if_neg (by rw [mk_data]; exact hne)]
  dsimp only [data_mk]
  rw [splitLines_no_nl hnl]
  show parseLine s.data = [Node.PlainText s]
  rw [parseLine_inline hbul hnum]
  rw [parseInlineMarkdown, if_neg (by rw [mk_data]; exact hne)]
  dsimp only [data_mk]
  rw [boldSplit_none hstar, italicSplit_none hstar, codeSplit_none htick,
    linkSplit_none hlb]
  simp [mk_data]

/-- Claim C4 (witness): the amended law applied to the concrete input
`"hello"`. -/
theorem claim_C4_witness : parseContent "hello" = [Node.PlainText "hello"] :=
  claim_C4_amended "hello" (by decide) (by decide) rfl rfl

/-- Claim C5 (counterexample): inline math expressions are trimmed
inside their delimiters, so `"$ a $"` parses to `InlineMath "a"` and
the concatenated leaf text is `"$a$"`, which does not reproduce the
original region. -/
theorem claim_C5_counterexample :
    leafConcat (parseContent "$ a $") = "$a$" ∧
    leafConcat (parseContent "$ a $") ≠ "$ a $" :=
  ⟨rfl, by decide⟩

/-- Claim C5 (amended): concatenating the leaf-node text content of
the output — restoring each node's literal delimiters and a newline
for each `LineBreak` — reproduces the original input for every region
without math spans, tables, or list-item lines: concretely, for every
input containing no dollar sign, no pipe, and no line that starts
with a bullet or numbered list marker.  (Math expressions are
reproduced only up to trimming, and list markers are lost.) -/
theorem claim_C5_amended : ∀ s : String,
    '$' ∉ s.data → '|' ∉ s.data →
    (∀ l ∈ splitLines s.data,
      isBulletLine l = false ∧ isNumberedLine l = false) →
    leafConcat (parseContent s) = s := by
  intro s hd hp hlist
  rw [parseContent_single (findBlockMath_none hd)]
  rw [processPart_not_math (by rw [startsWithDD_false hd, Bool.false_and])]
  rw [tablePhase_inline (findTable_none true (Or.inr hp))]
  by_cases hnil : s.data = []
  · rw [if_pos hnil]
    rw [str_eq_empty_iff.mpr hnil]
    rfl
  · rw [if_neg hnil, parseInlineContent_no_dollar hd]
    rw [parseMarkdown_leafConcat hlist, mk_data]

/-- Claim C5 (witness): the amended law applied to the concrete input
`"x\n**y**"`. -/
theorem claim_C5_witness : leafConcat (parseContent "x\n**y**") = "x\n**y**" :=
  claim_C5_amended "x\n**y**" (by decide) (by decide) (by decide)

end MarkdownLatex
